import Mathlib

/-!
Verification development for the trading-bot backend.

The definitions below are a shallow embedding of the Python sources:
`app/services/trading_logic.py` (quantity normalization, strategy loop,
position flattening, strategy stop), `app/services/advanced_orders.py`
(TWAP and Grid execution and cancellation) and
`app/services/binance_client.py` (`get_positions` post-processing and the
`place_order` wrapper).  Python `Decimal` values are embedded as
mantissa/exponent pairs with all decisions taken on integers; Python
`float` arithmetic in the TWAP/Grid schedulers is idealized as `ℚ`, which
is the reading the specification itself uses ("before any rounding").
The exchange client is a black-box oracle: each call's outcome is a
parameter of the embedding.
-/

deriving instance DecidableEq for Except

namespace TradingBot

/-- Powers of ten as integers; base-ten scaling used throughout the decimal
model. -/
def pow10 : Nat → Int
  | 0 => 1
  | n + 1 => 10 * pow10 n

/-- A decimal number in the sense of Python's `decimal.Decimal`: an integer
mantissa together with a base-ten exponent, representing `man * 10 ^ exp`.
Distinct representations of one value (for example `⟨1, -3⟩` for `0.001`
and `⟨100000, -8⟩` for `0.00100000`) are kept distinct, exactly as
`Decimal` keeps them. -/
structure Dec where
  man : Int
  exp : Int
deriving DecidableEq, Repr

/-- The rational value of `10 ^ e` for an integer exponent. -/
def unitVal (e : Int) : ℚ :=
  if 0 ≤ e then ((pow10 e.toNat : Int) : ℚ) else 1 / ((pow10 (-e).toNat : Int) : ℚ)

/-- The rational value represented by a decimal. -/
def Dec.val (d : Dec) : ℚ := (d.man : ℚ) * unitVal d.exp

/-- Fuel-driven helper for `tz`; the fuel bounds the recursion depth so the
definition is structural. -/
def tzAux : Nat → Nat → Nat
  | 0, _ => 0
  | fuel + 1, n => if n ≠ 0 ∧ n % 10 = 0 then tzAux fuel (n / 10) + 1 else 0

/-- Number of trailing zero digits of a natural number (with `tz 0 = 0`). -/
def tz (n : Nat) : Nat := tzAux n n

/-- The exponent of `Decimal.normalize()`: trailing zeros of the mantissa are
absorbed into the exponent, and a zero decimal normalizes to exponent `0`. -/
def normExp (d : Dec) : Int := if d.man = 0 then 0 else d.exp + tz d.man.natAbs

/-- Python `d.quantize(step, rounding=ROUND_DOWN)` of `Decimal`: rewrite `d`
at the target exponent `e` (the exponent of the step decimal), rounding the
mantissa toward zero when digits are dropped.  Note that `quantize` uses only
the *exponent* of the step argument, not its value. -/
def quantizeDown (d : Dec) (e : Int) : Dec :=
  if e ≤ d.exp then ⟨d.man * pow10 (d.exp - e).toNat, e⟩
  else ⟨Int.tdiv d.man (pow10 (e - d.exp).toNat), e⟩

/-- Round-half-even of `m / 10 ^ k`, on integers: banker's rounding as used by
Python string formatting of `Decimal`. -/
def rheMan (m : Int) (k : Nat) : Int :=
  let D := pow10 k
  let b := m / D
  let r := m % D
  if 2 * r < D then b
  else if D < 2 * r then b + 1
  else if b % 2 = 0 then b else b + 1

/-- Fixed-point formatting `f"{d:.pf}"` of a decimal at `p` fractional digits,
as a decimal of exponent `-p`.  Python formats `Decimal` with
round-half-even. -/
def formatAt (d : Dec) (p : Nat) : Dec :=
  if 0 ≤ d.exp + p then ⟨d.man * pow10 (d.exp + p).toNat, -(p : Int)⟩
  else ⟨rheMan d.man (-(d.exp + p)).toNat, -(p : Int)⟩

/-- Value comparison of two decimals (`Decimal.__lt__`), by comparing
mantissas rescaled to the smaller of the two exponents. -/
def decLt (a b : Dec) : Bool :=
  decide (a.man * pow10 (a.exp - min a.exp b.exp).toNat <
    b.man * pow10 (b.exp - min a.exp b.exp).toNat)

/-- The LOT_SIZE filter of a symbol, with its two fields already parsed from
the exchange's decimal strings (`stepSize`, `minQty`).  The code's defaults
for absent fields (`'1'` and `'0'`) are supplied by the caller of the model;
an unparsable field makes the code fall back exactly like an absent filter,
so it is subsumed by `lotFilter = none` below. -/
structure LotFilter where
  stepSize : Dec
  minQty : Dec
deriving DecidableEq, Repr

/-- The cached per-symbol filter set relevant to quantity normalization. -/
structure SymbolFilters where
  lotFilter : Option LotFilter
deriving DecidableEq, Repr

/-- Failure modes of `_normalize_quantity` past decimal parsing (the
`InvalidQuantity` case is pre-parsing and the model receives an already
parsed decimal). -/
inductive NormError where
  | quantityRoundsToZero
  | quantityBelowMinimum
deriving DecidableEq, Repr

/-- The output precision the code derives from a decimal: minus the
normalized exponent, clamped at zero (`max(0, -d.normalize().exponent)`). -/
def decPrecision (d : Dec) : Nat := (max 0 (-(normExp d))).toNat

/-- The fallback path of `_normalize_quantity`: the input quantity formatted
at its own natural precision. -/
def fallbackFormat (q : Dec) : Dec := formatAt q (decPrecision q)

/-- Model of `TradingLogic._normalize_quantity` on an already-parsed decimal quantity:
without a LOT_SIZE filter (or with a zero step size) return the quantity at
its natural precision; otherwise quantize down at the step's exponent, fail
if the result is zero or below `minQty`, and format the result at the
step size's implied precision. -/
def normalize_quantity (fs : SymbolFilters) (q : Dec) : Except NormError Dec :=
  match fs.lotFilter with
  | none => .ok (fallbackFormat q)
  | some lf =>
    if lf.stepSize.man = 0 then .ok (fallbackFormat q)
    else
      let n := quantizeDown q lf.stepSize.exp
      if n.man = 0 then .error .quantityRoundsToZero
      else if decLt n lf.minQty then .error .quantityBelowMinimum
      else .ok (formatAt n (decPrecision lf.stepSize))

example : normalize_quantity ⟨some ⟨⟨1, -3⟩, ⟨1, -3⟩⟩⟩ ⟨7, -4⟩ =
    .error .quantityRoundsToZero := by decide

example : normalize_quantity ⟨some ⟨⟨1, -3⟩, ⟨1, -3⟩⟩⟩ ⟨257, -4⟩ =
    .ok ⟨25, -3⟩ := by decide

example : normalize_quantity ⟨some ⟨⟨100000, -8⟩, ⟨0, 0⟩⟩⟩ ⟨4, -4⟩ =
    .ok ⟨0, -3⟩ := by decide

example : normalize_quantity ⟨some ⟨⟨100000, -8⟩, ⟨0, 0⟩⟩⟩ ⟨0, -3⟩ =
    .error .quantityRoundsToZero := by decide

example : normalize_quantity ⟨some ⟨⟨2, -3⟩, ⟨2, -3⟩⟩⟩ ⟨3, -3⟩ =
    .ok ⟨3, -3⟩ := by decide

theorem pow10_eq (n : Nat) : pow10 n = (10 : Int) ^ n := by
  induction n with
  | zero => rfl
  | succ k ih => rw [pow10, ih, pow_succ]; ring

theorem pow10_pos (n : Nat) : 0 < pow10 n := by
  rw [pow10_eq]; positivity

theorem pow10_ne_zero (n : Nat) : pow10 n ≠ 0 := (pow10_pos n).ne'

theorem unitVal_eq_zpow (e : Int) : unitVal e = (10 : ℚ) ^ e := by
  unfold unitVal
  split
  next h =>
    rw [pow10_eq]; push_cast
    rw [← zpow_natCast, Int.toNat_of_nonneg h]
  next h =>
    rw [pow10_eq]; push_cast
    rw [one_div, ← zpow_natCast, Int.toNat_of_nonneg (by omega), ← zpow_neg, neg_neg]

theorem unitVal_pos (e : Int) : 0 < unitVal e := by
  rw [unitVal_eq_zpow]; positivity

theorem unitVal_ne_zero (e : Int) : unitVal e ≠ 0 := (unitVal_pos e).ne'

theorem unitVal_add (a b : Int) : unitVal (a + b) = unitVal a * unitVal b := by
  rw [unitVal_eq_zpow, unitVal_eq_zpow, unitVal_eq_zpow,
    zpow_add₀ (by norm_num : (10 : ℚ) ≠ 0)]

theorem unitVal_mono {a b : Int} (h : a ≤ b) : unitVal a ≤ unitVal b := by
  rw [unitVal_eq_zpow, unitVal_eq_zpow]
  exact zpow_le_zpow_right₀ (by norm_num) h

theorem pow10_cast_eq_unitVal (n : Nat) : ((pow10 n : Int) : ℚ) = unitVal (n : Int) := by
  rw [unitVal_eq_zpow, pow10_eq]; push_cast; rw [zpow_natCast]

theorem Dec.val_mk (m e : Int) : Dec.val ⟨m, e⟩ = (m : ℚ) * unitVal e := rfl

theorem Dec.val_pos_iff (d : Dec) : 0 < d.val ↔ 0 < d.man := by
  have hu := unitVal_pos d.exp
  rw [Dec.val]
  constructor
  · intro h
    by_contra hm
    push_neg at hm
    have : (d.man : ℚ) ≤ 0 := by exact_mod_cast hm
    nlinarith
  · intro h
    exact mul_pos (by exact_mod_cast h) hu

theorem Dec.val_eq_zero_iff (d : Dec) : d.val = 0 ↔ d.man = 0 := by
  rw [Dec.val]
  simp [mul_eq_zero, unitVal_ne_zero d.exp, Int.cast_eq_zero]

theorem Dec.val_nonneg_iff (d : Dec) : 0 ≤ d.val ↔ 0 ≤ d.man := by
  have hu := unitVal_pos d.exp
  rw [Dec.val]
  constructor
  · intro h
    by_contra hm
    push_neg at hm
    have : (d.man : ℚ) < 0 := by exact_mod_cast hm
    nlinarith
  · intro h
    exact mul_nonneg (by exact_mod_cast h) hu.le

/-- Rescaling a decimal value to any smaller exponent. -/
theorem Dec.val_rescale (d : Dec) {e : Int} (h : e ≤ d.exp) :
    d.val = ((d.man * pow10 (d.exp - e).toNat : Int) : ℚ) * unitVal e := by
  push_cast
  rw [pow10_cast_eq_unitVal, Dec.val, mul_assoc, ← unitVal_add]
  congr 2
  omega

theorem quantizeDown_exp (d : Dec) (e : Int) : (quantizeDown d e).exp = e := by
  unfold quantizeDown
  split <;> rfl

/-- When no digits are dropped, quantization is exact. -/
theorem quantizeDown_val_of_le (d : Dec) {e : Int} (h : e ≤ d.exp) :
    (quantizeDown d e).val = d.val := by
  unfold quantizeDown
  rw [if_pos h, Dec.val_mk, ← Dec.val_rescale d h]

theorem quantizeDown_man_nonneg (d : Dec) (e : Int) (h : 0 ≤ d.man) :
    0 ≤ (quantizeDown d e).man := by
  unfold quantizeDown
  split
  · exact mul_nonneg h (pow10_pos _).le
  · simp only
    rw [Int.tdiv_eq_ediv h (pow10_pos _).le]
    exact Int.ediv_nonneg h (pow10_pos _).le

/-- Quantizing down never increases a nonnegative decimal. -/
theorem quantizeDown_val_le (d : Dec) (e : Int) (h : 0 ≤ d.man) :
    (quantizeDown d e).val ≤ d.val := by
  unfold quantizeDown
  split
  next hle => rw [Dec.val_mk, ← Dec.val_rescale d hle]
  next hgt =>
    push_neg at hgt
    have hk : e = d.exp + ((e - d.exp).toNat : Int) := by omega
    rw [Dec.val_mk, Int.tdiv_eq_ediv h (pow10_pos _).le]
    set D := pow10 (e - d.exp).toNat with hD
    have hDpos : 0 < D := pow10_pos _
    have key : (d.man / D) * D ≤ d.man := Int.ediv_mul_le d.man hDpos.ne'
    have hcast : ((d.man / D : Int) : ℚ) * (D : ℚ) ≤ (d.man : ℚ) := by exact_mod_cast key
    have hunit : unitVal e = (D : ℚ) * unitVal d.exp := by
      rw [hk, unitVal_add, pow10_cast_eq_unitVal]; ring
    rw [Dec.val, hunit]
    have hu := unitVal_pos d.exp
    nlinarith

/-- Maximality: any integer multiple of `10 ^ e` that is at most `d` is at
most the quantization of `d` at exponent `e`. -/
theorem quantizeDown_max (d : Dec) (e : Int) (h : 0 ≤ d.man) (m : Int)
    (hm : (m : ℚ) * unitVal e ≤ d.val) : m ≤ (quantizeDown d e).man := by
  unfold quantizeDown
  split
  next hle =>
    simp only
    have := Dec.val_rescale d hle
    rw [this] at hm
    have hu := unitVal_pos e
    have : (m : ℚ) ≤ ((d.man * pow10 (d.exp - e).toNat : Int) : ℚ) := by
      exact le_of_mul_le_mul_right hm hu
    exact_mod_cast this
  next hgt =>
    push_neg at hgt
    simp only
    have hk : e = d.exp + ((e - d.exp).toNat : Int) := by omega
    set D := pow10 (e - d.exp).toNat with hD
    have hDpos : 0 < D := pow10_pos _
    rw [Int.tdiv_eq_ediv h hDpos.le, Int.le_ediv_iff_mul_le hDpos]
    have hunit : unitVal e = (D : ℚ) * unitVal d.exp := by
      rw [hk, unitVal_add, pow10_cast_eq_unitVal]; ring
    rw [Dec.val, hunit] at hm
    have hu := unitVal_pos d.exp
    have h2 : (m : ℚ) * (D : ℚ) * unitVal d.exp ≤ (d.man : ℚ) * unitVal d.exp := by
      rw [mul_assoc]; exact hm
    have h3 : (m : ℚ) * (D : ℚ) ≤ (d.man : ℚ) := le_of_mul_le_mul_right h2 hu
    exact_mod_cast h3

/-- The quantized value is its mantissa times `10 ^ e`. -/
theorem quantizeDown_val (d : Dec) (e : Int) :
    (quantizeDown d e).val = ((quantizeDown d e).man : ℚ) * unitVal e := by
  rw [Dec.val, quantizeDown_exp]

/-- For a positive decimal, quantizing at exponent `e` yields mantissa zero
exactly when the value lies below `10 ^ e`. -/
theorem quantizeDown_man_eq_zero_iff (d : Dec) (e : Int) (h : 0 < d.man) :
    (quantizeDown d e).man = 0 ↔ d.val < unitVal e := by
  unfold quantizeDown
  split
  next hle =>
    simp only
    constructor
    · intro h0
      rcases mul_eq_zero.mp h0 with h1 | h2
      · omega
      · exact absurd h2 (pow10_ne_zero _)
    · intro hv
      exfalso
      have h1 : unitVal e ≤ unitVal d.exp := unitVal_mono hle
      have h2 : (1 : ℚ) ≤ (d.man : ℚ) := by exact_mod_cast h
      have h3 : unitVal d.exp ≤ d.val := by
        rw [Dec.val]
        nlinarith [unitVal_pos d.exp]
      linarith
  next hgt =>
    push_neg at hgt
    simp only
    have hk : e = d.exp + ((e - d.exp).toNat : Int) := by omega
    set D := pow10 (e - d.exp).toNat with hD
    have hDpos : 0 < D := pow10_pos _
    have hunit : unitVal e = (D : ℚ) * unitVal d.exp := by
      rw [hk, unitVal_add, pow10_cast_eq_unitVal]; ring
    rw [Int.tdiv_eq_ediv h.le hDpos.le]
    constructor
    · intro h0
      have hmanlt : d.man < D := by
        by_contra hge
        push_neg at hge
        have : 1 ≤ d.man / D := by
          rw [Int.le_ediv_iff_mul_le hDpos]; omega
        omega
      rw [Dec.val, hunit]
      have : (d.man : ℚ) < (D : ℚ) := by exact_mod_cast hmanlt
      nlinarith [unitVal_pos d.exp]
    · intro hv
      rw [Dec.val, hunit] at hv
      have hmanlt : (d.man : ℚ) < (D : ℚ) :=
        lt_of_mul_lt_mul_right hv (unitVal_pos d.exp).le
      exact Int.ediv_eq_zero_of_lt h.le (by exact_mod_cast hmanlt)

/-- Rounding half-to-even is exact on exact multiples. -/
theorem rheMan_exact {m : Int} {k : Nat} (h : pow10 k ∣ m) :
    rheMan m k = m / pow10 k := by
  unfold rheMan
  have hr : m % pow10 k = 0 := Int.emod_eq_zero_of_dvd h
  simp only [hr, mul_zero]
  rw [if_pos (pow10_pos k)]

theorem formatAt_exp (d : Dec) (p : Nat) : (formatAt d p).exp = -(p : Int) := by
  unfold formatAt
  split <;> rfl

/-- Formatting at the precision already carried by the decimal's exponent is
the identity. -/
theorem formatAt_self {d : Dec} {p : Nat} (h : d.exp = -(p : Int)) :
    formatAt d p = d := by
  unfold formatAt
  rw [if_pos (by omega : (0 : Int) ≤ d.exp + (p : Int))]
  have h0 : (d.exp + (p : Int)).toNat = 0 := by omega
  rw [h0]
  cases d with
  | mk m e =>
    simp only at h
    simp [pow10, h]

theorem formatAt_of_nonneg {d : Dec} {p : Nat} (h : 0 ≤ d.exp + (p : Int)) :
    formatAt d p = ⟨d.man * pow10 (d.exp + (p : Int)).toNat, -(p : Int)⟩ := by
  unfold formatAt
  rw [if_pos h]

theorem formatAt_of_neg {d : Dec} {p : Nat} (h : d.exp + (p : Int) < 0) :
    formatAt d p = ⟨rheMan d.man (-(d.exp + (p : Int))).toNat, -(p : Int)⟩ := by
  unfold formatAt
  rw [if_neg (by omega)]

/-- The comparison `decLt` decides the value order of decimals. -/
theorem decLt_iff (a b : Dec) : decLt a b = true ↔ a.val < b.val := by
  unfold decLt
  rw [decide_eq_true_iff]
  have ha : min a.exp b.exp ≤ a.exp := min_le_left _ _
  have hb : min a.exp b.exp ≤ b.exp := min_le_right _ _
  constructor
  · intro h
    rw [Dec.val_rescale a ha, Dec.val_rescale b hb]
    exact mul_lt_mul_of_pos_right (by exact_mod_cast h) (unitVal_pos _)
  · intro h
    rw [Dec.val_rescale a ha, Dec.val_rescale b hb] at h
    have := lt_of_mul_lt_mul_right h (unitVal_pos _).le
    exact_mod_cast this

theorem tzAux_stable : ∀ (f1 f2 n : Nat), n ≤ f1 → n ≤ f2 → tzAux f1 n = tzAux f2 n := by
  intro f1
  induction f1 with
  | zero =>
    intro f2 n h1 _
    interval_cases n
    cases f2 with
    | zero => rfl
    | succ k => simp [tzAux]
  | succ f ih =>
    intro f2 n h1 h2
    cases f2 with
    | zero =>
      interval_cases n
      simp [tzAux]
    | succ g =>
      show tzAux (f + 1) n = tzAux (g + 1) n
      unfold tzAux
      split
      next hc =>
        have hlt : n / 10 < n := Nat.div_lt_self (Nat.pos_of_ne_zero hc.1) (by norm_num)
        rw [ih g (n / 10) (by omega) (by omega)]
      next => rfl

/-- The defining recurrence of `tz`. -/
theorem tz_eq (n : Nat) : tz n = if n ≠ 0 ∧ n % 10 = 0 then tz (n / 10) + 1 else 0 := by
  cases n with
  | zero => simp [tz, tzAux]
  | succ k =>
    by_cases hc : (k + 1) % 10 = 0
    · rw [if_pos ⟨Nat.succ_ne_zero k, hc⟩]
      have hlt : (k + 1) / 10 < k + 1 := Nat.div_lt_self (by omega) (by norm_num)
      have h1 : tzAux (k + 1) (k + 1) = tzAux k ((k + 1) / 10) + 1 := by
        rw [tzAux, if_pos ⟨Nat.succ_ne_zero k, hc⟩]
      rw [show tz (k + 1) = tzAux (k + 1) (k + 1) from rfl, h1,
        tzAux_stable k ((k + 1) / 10) ((k + 1) / 10) (by omega) le_rfl]
      rfl
    · rw [if_neg (by tauto)]
      rw [show tz (k + 1) = tzAux (k + 1) (k + 1) from rfl, tzAux, if_neg (by tauto)]

/-- The power `10 ^ tz n` divides `n`, and the corresponding quotient has no further
factor of ten. -/
theorem tz_spec (n : Nat) (h : n ≠ 0) : 10 ^ tz n ∣ n ∧ ¬ (10 ∣ n / 10 ^ tz n) := by
  induction n using Nat.strong_induction_on with
  | _ n ih =>
    by_cases h10 : n % 10 = 0
    · rw [tz_eq, if_pos ⟨h, h10⟩]
      have hdvd : 10 ∣ n := Nat.dvd_of_mod_eq_zero h10
      have hq : n / 10 ≠ 0 := by
        intro h0
        have := Nat.div_mul_cancel hdvd
        rw [h0, zero_mul] at this
        exact h this.symm
      have hlt : n / 10 < n := Nat.div_lt_self (Nat.pos_of_ne_zero h) (by norm_num)
      obtain ⟨ih1, ih2⟩ := ih (n / 10) hlt hq
      constructor
      · rw [pow_succ]
        have h2 : n / 10 * 10 = n := Nat.div_mul_cancel hdvd
        exact dvd_trans (mul_dvd_mul_right ih1 10) (dvd_of_eq h2)
      · rw [pow_succ', ← Nat.div_div_eq_div_mul]
        exact ih2
    · rw [tz_eq, if_neg (by tauto)]
      simp only [pow_zero, Nat.div_one]
      exact ⟨one_dvd n, fun hd => h10 (Nat.mod_eq_zero_of_dvd hd)⟩

theorem tz_eq_zero_of_not_dvd {n : Nat} (h : ¬ (10 ∣ n)) : tz n = 0 := by
  rw [tz_eq, if_neg]
  rintro ⟨_, hmod⟩
  exact h (Nat.dvd_of_mod_eq_zero hmod)

theorem quantizeDown_of_exp_eq {d : Dec} {e : Int} (h : d.exp = e) :
    quantizeDown d e = d := by
  unfold quantizeDown
  rw [if_pos (le_of_eq h.symm)]
  cases d with
  | mk m ex =>
    simp only at h
    subst h
    simp [pow10]

theorem rheMan_zero (k : Nat) : rheMan 0 k = 0 := by
  unfold rheMan
  simp [Int.zero_ediv, Int.zero_emod, pow10_pos k]

theorem formatAt_zero_man {d : Dec} (h : d.man = 0) (p : Nat) :
    formatAt d p = ⟨0, -(p : Int)⟩ := by
  unfold formatAt
  split
  · rw [h, zero_mul]
  · rw [h, rheMan_zero]

/-- Divisibility by a power of ten transfers to the integer mantissa from the
trailing-zero count of its absolute value. -/
theorem pow10_dvd_of_le_tz {m : Int} (hm : m ≠ 0) {k : Nat}
    (hk : k ≤ tz m.natAbs) : pow10 k ∣ m := by
  have h1 : (10 : Nat) ^ tz m.natAbs ∣ m.natAbs :=
    (tz_spec m.natAbs (by simpa using hm)).1
  have h2 : (10 : Nat) ^ k ∣ m.natAbs := dvd_trans (pow_dvd_pow 10 hk) h1
  rw [pow10_eq]
  have : ((10 : Int) ^ k).natAbs ∣ m.natAbs := by
    simpa [Int.natAbs_pow] using h2
  exact Int.natAbs_dvd_natAbs.mp this

theorem natAbs_ediv_pow10 {m : Int} {k : Nat} (h : pow10 k ∣ m) :
    (m / pow10 k).natAbs = m.natAbs / 10 ^ k := by
  obtain ⟨c, hc⟩ := h
  subst hc
  rw [Int.mul_ediv_cancel_left c (pow10_ne_zero k)]
  rw [Int.natAbs_mul]
  have : (pow10 k).natAbs = 10 ^ k := by
    rw [pow10_eq, Int.natAbs_pow]; rfl
  rw [this, Nat.mul_div_cancel_left _ (by positivity)]

/-- One-step unfolding of `normalize_quantity` for a present, nonzero-step
LOT_SIZE filter. -/
theorem normalize_quantity_some (lf : LotFilter) (q : Dec)
    (hman : lf.stepSize.man ≠ 0) :
    normalize_quantity ⟨some lf⟩ q =
      (if (quantizeDown q lf.stepSize.exp).man = 0 then .error .quantityRoundsToZero
       else if decLt (quantizeDown q lf.stepSize.exp) lf.minQty then
         .error .quantityBelowMinimum
       else .ok (formatAt (quantizeDown q lf.stepSize.exp) (decPrecision lf.stepSize))) := by
  simp only [normalize_quantity]
  rw [if_neg hman]

theorem decPrecision_def (d : Dec) : decPrecision d = (max 0 (-(normExp d))).toNat := rfl

/-- A decimal with exponent zero is a fixed point of the fallback
formatting. -/
theorem fallbackFormat_of_exp_zero {d : Dec} (h : d.exp = 0) :
    fallbackFormat d = d := by
  have hnorm : 0 ≤ normExp d := by
    unfold normExp
    split
    · omega
    · rw [h]; omega
  have hp : decPrecision d = 0 := by
    unfold decPrecision
    omega
  unfold fallbackFormat
  rw [hp]
  exact formatAt_self (by rw [h]; simp)

/-- The fallback path of the normalizer is idempotent: formatting a quantity
at its own natural precision is a projection. -/
theorem fallbackFormat_idem (q : Dec) : fallbackFormat (fallbackFormat q) = fallbackFormat q := by
  by_cases hm : q.man = 0
  · have hp : decPrecision q = 0 := by
      unfold decPrecision normExp
      rw [if_pos hm]
      rfl
    have h1 : fallbackFormat q = ⟨0, 0⟩ := by
      have h2 := formatAt_zero_man hm (decPrecision q)
      unfold fallbackFormat
      rw [h2, hp]
      norm_num
    rw [h1]
    exact fallbackFormat_of_exp_zero rfl
  · set z := tz q.man.natAbs with hz
    by_cases hez : 0 ≤ q.exp + (z : Int)
    · -- natural precision zero: the value is an integer
      have hnorm : normExp q = q.exp + (z : Int) := by
        unfold normExp
        rw [if_neg hm]
      have hp : decPrecision q = 0 := by
        unfold decPrecision
        omega
      have hout : ∃ M : Int, M ≠ 0 ∧ fallbackFormat q = ⟨M, 0⟩ := by
        unfold fallbackFormat
        rw [hp]
        by_cases he : 0 ≤ q.exp + ((0 : Nat) : Int)
        · refine ⟨q.man * pow10 (q.exp + ((0 : Nat) : Int)).toNat, ?_, ?_⟩
          · exact mul_ne_zero hm (pow10_ne_zero _)
          · rw [formatAt_of_nonneg he]
            norm_num
        · push_neg at he
          have hk : (-(q.exp + ((0 : Nat) : Int))).toNat ≤ z := by omega
          have hdvd : pow10 ((-(q.exp + ((0 : Nat) : Int))).toNat) ∣ q.man :=
            pow10_dvd_of_le_tz hm hk
          refine ⟨q.man / pow10 ((-(q.exp + ((0 : Nat) : Int))).toNat), ?_, ?_⟩
          · intro h0
            obtain ⟨c, hc⟩ := hdvd
            rw [hc, Int.mul_ediv_cancel_left c (pow10_ne_zero _)] at h0
            rw [hc, h0, mul_zero] at hm
            exact hm rfl
          · rw [formatAt_of_neg he, rheMan_exact hdvd]
            norm_num
      obtain ⟨M, hM, hMout⟩ := hout
      rw [hMout]
      exact fallbackFormat_of_exp_zero rfl
    · push_neg at hez
      have hnorm : normExp q = q.exp + (z : Int) := by
        unfold normExp
        rw [if_neg hm]
      have hp : (decPrecision q : Int) = -(q.exp + (z : Int)) := by
        unfold decPrecision
        omega
      by_cases hz0 : z = 0
      · -- no trailing zeros: formatting is the identity already
        have : fallbackFormat q = q := by
          unfold fallbackFormat
          exact formatAt_self (by omega)
        rw [this, this]
      · -- strip the trailing zeros; the result has none left
        have hkz : (-(q.exp + (decPrecision q : Int))).toNat = z := by omega
        have hneg : q.exp + (decPrecision q : Int) < 0 := by omega
        have hdvd : pow10 ((-(q.exp + (decPrecision q : Int))).toNat) ∣ q.man := by
          rw [hkz]
          exact pow10_dvd_of_le_tz hm le_rfl
        have hout : fallbackFormat q =
            ⟨q.man / pow10 z, -(decPrecision q : Int)⟩ := by
          unfold fallbackFormat
          rw [formatAt_of_neg hneg, rheMan_exact hdvd, hkz]
        set M := q.man / pow10 z with hMdef
        have hMne : M ≠ 0 := by
          intro h0
          obtain ⟨c, hc⟩ := hkz ▸ hdvd
          rw [hMdef, hc, Int.mul_ediv_cancel_left c (pow10_ne_zero _)] at h0
          rw [hc, h0, mul_zero] at hm
          exact hm rfl
        have hMtz : tz M.natAbs = 0 := by
          apply tz_eq_zero_of_not_dvd
          rw [hMdef, natAbs_ediv_pow10 (hkz ▸ hdvd)]
          exact (tz_spec q.man.natAbs (by simpa using hm)).2
        rw [hout]
        have hnorm2 : normExp ⟨M, -(decPrecision q : Int)⟩ = q.exp + (z : Int) := by
          unfold normExp
          rw [if_neg hMne]
          simp only [hMtz]
          omega
        have hp2 : (decPrecision (⟨M, -(decPrecision q : Int)⟩ : Dec) : Int) =
            (decPrecision q : Int) := by
          rw [decPrecision_def, hnorm2]
          omega
        unfold fallbackFormat
        apply formatAt_self
        simp only
        omega

theorem quantizeDown_mul_pow10 (M : Int) {e : Int} (he : 0 < e) :
    quantizeDown ⟨M * pow10 e.toNat, 0⟩ e = ⟨M, e⟩ := by
  unfold quantizeDown
  rw [if_neg (by simp only; omega)]
  simp only [Int.sub_zero]
  rw [Int.mul_tdiv_cancel M (pow10_ne_zero _)]

/-- Idempotence of the normalizer on the filtered path, provided the step
size's mantissa carries no trailing zeros (so that the formatting precision
agrees with the quantization exponent). -/
theorem normalize_ok_canonical (lf : LotFilter) (q out : Dec)
    (hman : lf.stepSize.man ≠ 0) (htz : tz lf.stepSize.man.natAbs = 0)
    (h : normalize_quantity ⟨some lf⟩ q = .ok out) :
    normalize_quantity ⟨some lf⟩ out = .ok out := by
  set E := lf.stepSize.exp with hE
  have hnorm : normExp lf.stepSize = E := by
    unfold normExp
    rw [if_neg hman, htz]
    simp
  rw [normalize_quantity_some lf q hman] at h
  rw [normalize_quantity_some lf out hman]
  by_cases h0 : (quantizeDown q E).man = 0
  · rw [if_pos h0] at h
    simp at h
  rw [if_neg h0] at h
  by_cases hlt : decLt (quantizeDown q E) lf.minQty = true
  · rw [if_pos hlt] at h
    simp at h
  rw [if_neg hlt] at h
  have hout : out = formatAt (quantizeDown q E) (decPrecision lf.stepSize) := by
    injection h with h1
    exact h1.symm
  have hp : decPrecision lf.stepSize = (max 0 (-E)).toNat := by
    rw [decPrecision_def, hnorm]
  by_cases hE0 : E ≤ 0
  · have hself : out = quantizeDown q E := by
      rw [hout]
      exact formatAt_self (by rw [quantizeDown_exp, hp]; omega)
    have hq2 : quantizeDown out E = out :=
      quantizeDown_of_exp_eq (by rw [hself, quantizeDown_exp])
    rw [hq2, if_neg (by rw [hself]; exact h0), if_neg (by rw [hself]; exact hlt)]
    congr 1
    rw [hself]
    exact formatAt_self (by rw [quantizeDown_exp, hp]; omega)
  · push_neg at hE0
    have hp0 : decPrecision lf.stepSize = 0 := by rw [hp]; omega
    have hnexp : (quantizeDown q E).exp = E := quantizeDown_exp q E
    have hout2 : out = ⟨(quantizeDown q E).man * pow10 E.toNat, 0⟩ := by
      rw [hout, hp0, formatAt_of_nonneg (by rw [hnexp]; omega), hnexp]
      norm_num
    have hqd : quantizeDown out E = ⟨(quantizeDown q E).man, E⟩ := by
      rw [hout2]
      exact quantizeDown_mul_pow10 _ hE0
    have hfix : (⟨(quantizeDown q E).man, E⟩ : Dec) = quantizeDown q E := by
      cases hqq : quantizeDown q E with
      | mk m ex =>
        have : ex = E := by rw [← hnexp, hqq]
        rw [this]
    rw [hqd, hfix, if_neg h0, if_neg hlt]
    congr 1

/-- Formatting is value-preserving whenever no fractional digits are
dropped. -/
theorem formatAt_val_of_nonneg {d : Dec} {p : Nat} (h : 0 ≤ d.exp + (p : Int)) :
    (formatAt d p).val = d.val := by
  rw [formatAt_of_nonneg h, Dec.val_mk]
  push_cast
  rw [pow10_cast_eq_unitVal, mul_assoc, ← unitVal_add]
  have h2 : ((d.exp + (p : Int)).toNat : Int) + (-(p : Int)) = d.exp := by omega
  rw [h2, Dec.val]

/-- The value returned on the success path with a unit-mantissa step equals
the quantized value. -/
theorem normalize_ok_val (e : Int) (mq q out : Dec)
    (h : normalize_quantity ⟨some ⟨⟨1, e⟩, mq⟩⟩ q = .ok out) :
    out.val = (quantizeDown q e).val ∧ (quantizeDown q e).man ≠ 0 ∧
      ¬ decLt (quantizeDown q e) mq = true := by
  have hman : (⟨1, e⟩ : Dec).man ≠ 0 := one_ne_zero
  rw [normalize_quantity_some _ q hman] at h
  by_cases h0 : (quantizeDown q e).man = 0
  · rw [if_pos h0] at h
    simp at h
  rw [if_neg h0] at h
  by_cases hlt : decLt (quantizeDown q e) mq = true
  · rw [if_pos hlt] at h
    simp at h
  rw [if_neg hlt] at h
  injection h with h1
  have htz1 : tz (1 : Nat) = 0 := by decide
  have hnorm : normExp ⟨1, e⟩ = e := by
    unfold normExp
    rw [if_neg one_ne_zero]
    simp [htz1]
  have hp : decPrecision (⟨1, e⟩ : Dec) = (max 0 (-e)).toNat := by
    rw [decPrecision_def, hnorm]
  refine ⟨?_, h0, hlt⟩
  rw [← h1, hp]
  exact formatAt_val_of_nonneg (by rw [quantizeDown_exp]; simp only; omega)

/-- C4 (amended): for a cached LOT_SIZE filter whose step size is a canonical
power of ten `10 ^ e` (unit mantissa, as in the claim's own `0.001` example)
and a positive decimal quantity, `_normalize_quantity` returns the largest
multiple of the step size that is at most the quantity; it fails with
`QuantityRoundsToZero` exactly when the quantity lies below one step, fails
with `QuantityBelowMinimum` exactly when the truncation is nonzero but below
`minQty`, and a successful result is never zero and never below `minQty`.
The quantity `0.0007` with step `0.001` fails with `QuantityRoundsToZero`.
For a non-power-of-ten step size the code truncates at the step's decimal
exponent instead of its multiples (see the counterexample). -/
theorem normalize_lot_filter_spec (e : Int) (mq q : Dec) (hq : 0 < q.val) :
    (∀ out, normalize_quantity ⟨some ⟨⟨1, e⟩, mq⟩⟩ q = .ok out →
      (∃ k : Int, out.val = (k : ℚ) * Dec.val ⟨1, e⟩) ∧
      out.val ≤ q.val ∧
      (∀ m : Int, (m : ℚ) * Dec.val ⟨1, e⟩ ≤ q.val → (m : ℚ) * Dec.val ⟨1, e⟩ ≤ out.val) ∧
      out.val ≠ 0 ∧ ¬ (out.val < mq.val)) ∧
    (normalize_quantity ⟨some ⟨⟨1, e⟩, mq⟩⟩ q = .error .quantityRoundsToZero ↔
      q.val < Dec.val ⟨1, e⟩) ∧
    (normalize_quantity ⟨some ⟨⟨1, e⟩, mq⟩⟩ q = .error .quantityBelowMinimum ↔
      Dec.val ⟨1, e⟩ ≤ q.val ∧ (quantizeDown q e).val < mq.val) ∧
    normalize_quantity ⟨some ⟨⟨1, -3⟩, ⟨1, -3⟩⟩⟩ ⟨7, -4⟩ = .error .quantityRoundsToZero := by
  have hqman : 0 < q.man := (Dec.val_pos_iff q).mp hq
  have hS : Dec.val ⟨1, e⟩ = unitVal e := by rw [Dec.val_mk]; norm_num
  have hz := quantizeDown_man_eq_zero_iff q e hqman
  have hman : (⟨1, e⟩ : Dec).man ≠ 0 := one_ne_zero
  refine ⟨?_, ?_, ?_, by decide⟩
  · intro out hok
    obtain ⟨hval, h0, hlt⟩ := normalize_ok_val e mq q out hok
    refine ⟨⟨(quantizeDown q e).man, by rw [hval, hS, quantizeDown_val]⟩, ?_, ?_, ?_, ?_⟩
    · rw [hval]
      exact quantizeDown_val_le q e hqman.le
    · intro m hm
      rw [hS] at hm ⊢
      have hle : m ≤ (quantizeDown q e).man := quantizeDown_max q e hqman.le m hm
      rw [hval, quantizeDown_val]
      have hcast : (m : ℚ) ≤ ((quantizeDown q e).man : ℚ) := by exact_mod_cast hle
      exact mul_le_mul_of_nonneg_right hcast (unitVal_pos e).le
    · rw [hval]
      intro hcontra
      exact h0 ((Dec.val_eq_zero_iff _).mp hcontra)
    · rw [hval]
      intro hcontra
      exact hlt ((decLt_iff _ _).mpr hcontra)
  · rw [normalize_quantity_some _ q hman, hS]
    by_cases h0 : (quantizeDown q e).man = 0
    · rw [if_pos h0]
      exact iff_of_true rfl (hz.mp h0)
    · rw [if_neg h0]
      have hfalse : ¬ (q.val < unitVal e) := fun hc => h0 (hz.mpr hc)
      refine iff_of_false ?_ hfalse
      by_cases hlt2 : decLt (quantizeDown q e) mq = true
      · rw [if_pos hlt2]; simp
      · rw [if_neg hlt2]; simp
  · rw [normalize_quantity_some _ q hman, hS]
    by_cases h0 : (quantizeDown q e).man = 0
    · rw [if_pos h0]
      refine iff_of_false (by simp) ?_
      rintro ⟨hge, _⟩
      exact absurd (hz.mp h0) (not_lt.mpr hge)
    · rw [if_neg h0]
      have hge : unitVal e ≤ q.val := not_lt.mp (fun hc => h0 (hz.mpr hc))
      by_cases hlt2 : decLt (quantizeDown q e) mq = true
      · rw [if_pos hlt2]
        exact iff_of_true rfl ⟨hge, (decLt_iff _ _).mp hlt2⟩
      · rw [if_neg hlt2]
        refine iff_of_false (by simp) ?_
        rintro ⟨_, hv⟩
        exact hlt2 ((decLt_iff _ _).mpr hv)

/-- Witness for `normalize_lot_filter_spec` at step `0.001`, `minQty 0.001`
and quantity `0.0257`. -/
theorem normalize_lot_filter_spec_witness :
    (0 : ℚ) < Dec.val ⟨257, -4⟩ ∧
    normalize_quantity ⟨some ⟨⟨1, -3⟩, ⟨1, -3⟩⟩⟩ ⟨7, -4⟩ = .error .quantityRoundsToZero := by
  have hpos : (0 : ℚ) < Dec.val ⟨257, -4⟩ := by
    rw [(Dec.val_pos_iff _)]
    norm_num
  exact ⟨hpos, (normalize_lot_filter_spec (-3) ⟨1, -3⟩ ⟨257, -4⟩ hpos).2.2.2⟩

/-- Counterexample to C4 as stated: with step size `0.002` the code does not
return a multiple of the step size — quantity `0.003` is returned unchanged
because `Decimal.quantize` only truncates at the step's exponent. -/
theorem normalize_not_step_multiple_counterexample :
    normalize_quantity ⟨some ⟨⟨2, -3⟩, ⟨2, -3⟩⟩⟩ ⟨3, -3⟩ = .ok ⟨3, -3⟩ ∧
    ¬ ∃ k : Int, Dec.val ⟨3, -3⟩ = (k : ℚ) * Dec.val ⟨2, -3⟩ := by
  refine ⟨by decide, ?_⟩
  rintro ⟨k, hk⟩
  rw [Dec.val_mk, Dec.val_mk] at hk
  have hu : unitVal (-3 : Int) = 1 / 1000 := by
    norm_num [unitVal, pow10]
  rw [hu] at hk
  have h2 : (3 : ℚ) = (k : ℚ) * 2 := by
    field_simp at hk
    linarith
  have h3 : (3 : Int) = k * 2 := by exact_mod_cast h2
  omega

/-- C9 (amended): the normalizer is idempotent on every quantity it accepts,
for any symbol whose cached LOT_SIZE step size (if present) carries no
trailing zero digits in its mantissa — in particular for every canonical
step size such as `0.001`, and for symbols without a filter.  (With trailing
zeros, as in the exchange's `0.00100000` spelling, idempotence fails; see the
counterexample.) -/
theorem normalize_idempotent_spec (fs : SymbolFilters) (q out : Dec)
    (hstep : ∀ lf, fs.lotFilter = some lf → tz lf.stepSize.man.natAbs = 0)
    (h : normalize_quantity fs q = .ok out) :
    normalize_quantity fs out = .ok out := by
  obtain ⟨lfo⟩ := fs
  cases lfo with
  | none =>
    have h1 : fallbackFormat q = out := by
      injection h with h2
    show Except.ok (fallbackFormat out) = Except.ok out
    rw [← h1, fallbackFormat_idem]
  | some lf =>
    by_cases hzero : lf.stepSize.man = 0
    · simp only [normalize_quantity] at h ⊢
      rw [if_pos hzero] at h ⊢
      have h1 : fallbackFormat q = out := by
        injection h with h2
      rw [← h1, fallbackFormat_idem]
    · exact normalize_ok_canonical lf q out hzero (hstep lf rfl) h

/-- Witness for `normalize_idempotent_spec`: normalizing `0.0257` at step
`0.001` gives `0.025`, which re-normalizes to itself. -/
theorem normalize_idempotent_spec_witness :
    normalize_quantity ⟨some ⟨⟨1, -3⟩, ⟨1, -3⟩⟩⟩ ⟨25, -3⟩ = .ok ⟨25, -3⟩ :=
  normalize_idempotent_spec ⟨some ⟨⟨1, -3⟩, ⟨1, -3⟩⟩⟩ ⟨257, -4⟩ ⟨25, -3⟩
    (by rintro lf hlf; cases hlf; decide) (by decide)

/-- Counterexample to C9 as stated: with the step size spelled `0.00100000`
(trailing zeros, as the exchange sends it) and `minQty 0`, the quantity
`0.0004` is accepted and formatted as `0.000`, whose re-normalization fails
with `QuantityRoundsToZero` — so normalize ∘ normalize differs from
normalize. -/
theorem normalize_idempotence_counterexample :
    normalize_quantity ⟨some ⟨⟨100000, -8⟩, ⟨0, 0⟩⟩⟩ ⟨4, -4⟩ = .ok ⟨0, -3⟩ ∧
    normalize_quantity ⟨some ⟨⟨100000, -8⟩, ⟨0, 0⟩⟩⟩ ⟨0, -3⟩ =
      .error .quantityRoundsToZero := by
  exact ⟨by decide, by decide⟩

/-- Plan status values stored in the TWAP/Grid registries. -/
inductive PlanStatus where
  | active
  | completed
  | cancelled
  | error
deriving DecidableEq, Repr

/-- Registry entry for one TWAP plan (`active_twap_orders[order_id]`),
together with the trace of quantities sent to the gateway (`calls`, one
entry per `place_order` call, successful or not). -/
structure TwapState where
  status : PlanStatus
  executed : ℚ
  currentSlice : Nat
  orders : List ℚ
  calls : List ℚ
deriving DecidableEq, Repr

/-- The status transition of `cancel_twap_order` on a registered plan:
only `active` flips to `cancelled`. -/
def cancelStatus (s : PlanStatus) : PlanStatus × Bool :=
  if s = .active then (.cancelled, true) else (s, false)

/-- Model of `AdvancedOrderManager.cancel_twap_order`: `none` models an unknown plan
id; the call succeeds only when the plan exists with status `active`. -/
def cancel_twap_order (st : Option PlanStatus) : Option PlanStatus × Bool :=
  match st with
  | none => (none, false)
  | some s => ((cancelStatus s).1, (cancelStatus s).2) |> fun r => (some r.1, r.2)

/-- Derived slice count of `execute_twap_order`:
`max(1, duration_minutes * 60 // interval_seconds)`. -/
def twapNumSlices (durationMinutes intervalSeconds : Nat) : Nat :=
  max 1 (durationMinutes * 60 / intervalSeconds)

/-- Derived per-slice quantity: `total_quantity / num_slices`. -/
def twapSliceQty (total : ℚ) (durationMinutes intervalSeconds : Nat) : ℚ :=
  total / (twapNumSlices durationMinutes intervalSeconds : ℚ)

/-- The slice loop of `execute_twap_order`, over the remaining slice indices.
`gw i` says whether the gateway accepts slice `i`'s MARKET order; `cancelAt i`
says whether a cancellation request is processed before iteration `i`'s
status checkpoint (that is, during the preceding inter-slice sleep).  The
loop checks the status, places the order with the raw slice quantity,
updates the audit fields, and on gateway failure sets status `error` and
re-raises; after the loop — including after a cancellation `break` — the
code unconditionally sets the status to `completed`. -/
def twapLoop (qps : ℚ) (gw : Nat → Bool) (cancelAt : Nat → Bool) :
    List Nat → TwapState → TwapState
  | [], st => { st with status := .completed }
  | i :: rest, st =>
    let st1 := if cancelAt i then { st with status := (cancelStatus st.status).1 } else st
    if st1.status ≠ .active then { st1 with status := .completed }
    else
      let st2 := { st1 with calls := st1.calls ++ [qps] }
      if gw i then
        twapLoop qps gw cancelAt rest
          { st2 with
            orders := st2.orders ++ [qps]
            executed := st2.executed + qps
            currentSlice := i + 1 }
      else { st2 with status := .error }

/-- Model of `AdvancedOrderManager.execute_twap_order`: register the plan as `active`
and run the slice loop. -/
def execute_twap_order (total : ℚ) (durationMinutes intervalSeconds : Nat)
    (gw cancelAt : Nat → Bool) : TwapState :=
  twapLoop (twapSliceQty total durationMinutes intervalSeconds) gw cancelAt
    (List.range (twapNumSlices durationMinutes intervalSeconds))
    { status := .active, executed := 0, currentSlice := 0, orders := [], calls := [] }

/-- Every gateway call made by the TWAP loop carries the fixed raw slice
quantity. -/
theorem twapLoop_calls (qps : ℚ) (gw cancelAt : Nat → Bool) :
    ∀ (l : List Nat) (st : TwapState), (∀ q ∈ st.calls, q = qps) →
      ∀ q ∈ (twapLoop qps gw cancelAt l st).calls, q = qps := by
  intro l
  induction l with
  | nil =>
    intro st h q hq
    exact h q hq
  | cons i rest ih =>
    intro st h q hq
    simp only [twapLoop] at hq
    set st1 := if cancelAt i then { st with status := (cancelStatus st.status).1 } else st
      with hst1
    have hcalls1 : st1.calls = st.calls := by
      rw [hst1]
      split <;> rfl
    split at hq
    · exact h q (hcalls1 ▸ hq)
    · split at hq
      · refine ih _ ?_ q hq
        intro r hr
        have hr2 : r ∈ st1.calls ++ [qps] := hr
        rcases List.mem_append.mp hr2 with h1 | h1
        · exact h r (hcalls1 ▸ h1)
        · simpa using h1
      · have hq2 : q ∈ st1.calls ++ [qps] := hq
        rcases List.mem_append.mp hq2 with h1 | h1
        · exact h q (hcalls1 ▸ h1)
        · simpa using h1

/-- C1 (amended): `execute_twap_order` does not pass slice quantities through
the quantity normalizer — every MARKET order it sends to the gateway carries
exactly the raw quantity `total_quantity / num_slices`, so a zero or
sub-minimum quantity can reach the gateway (see the counterexample). -/
theorem twap_slice_quantity_unnormalized (total : ℚ)
    (durationMinutes intervalSeconds : Nat) (gw cancelAt : Nat → Bool) :
    ∀ q ∈ (execute_twap_order total durationMinutes intervalSeconds gw cancelAt).calls,
      q = twapSliceQty total durationMinutes intervalSeconds := by
  intro q hq
  exact twapLoop_calls _ gw cancelAt _ _ (by intro r hr; simp at hr) q hq

/-- Witness for `twap_slice_quantity_unnormalized`: a successful one-slice
run whose single gateway call carries the raw slice quantity. -/
theorem twap_slice_quantity_unnormalized_witness :
    twapSliceQty (7 / 10000) 1 60 ∈
      (execute_twap_order (7 / 10000) 1 60 (fun _ => true) (fun _ => false)).calls ∧
    twapSliceQty (7 / 10000) 1 60 = twapSliceQty (7 / 10000) 1 60 := by
  have hmem : twapSliceQty (7 / 10000) 1 60 ∈
      (execute_twap_order (7 / 10000) 1 60 (fun _ => true) (fun _ => false)).calls := by
    have h2 : List.range (twapNumSlices 1 60) = [0] := by decide
    unfold execute_twap_order
    rw [h2]
    simp [twapLoop, cancelStatus]
  exact ⟨hmem,
    twap_slice_quantity_unnormalized (7 / 10000) 1 60 (fun _ => true) (fun _ => false)
      (twapSliceQty (7 / 10000) 1 60) hmem⟩

/-- Counterexample to C1 as stated: a TWAP plan of `0.0007` of a symbol whose
LOT_SIZE filter has step `0.001`, `minQty 0.001`, one slice.  The gateway
receives the raw quantity `0.0007`, which is below `minQty`, while the
quantity normalizer would have rejected exactly this quantity with
`QuantityRoundsToZero` — so slice quantities are not normalized and the
gateway does receive a sub-minimum quantity. -/
theorem twap_sends_subminimum_quantity_counterexample :
    (execute_twap_order (7 / 10000) 1 60 (fun _ => true) (fun _ => false)).calls
      = [7 / 10000] ∧
    Dec.val ⟨7, -4⟩ = 7 / 10000 ∧
    (7 / 10000 : ℚ) < Dec.val ⟨1, -3⟩ ∧
    normalize_quantity ⟨some ⟨⟨1, -3⟩, ⟨1, -3⟩⟩⟩ ⟨7, -4⟩ = .error .quantityRoundsToZero := by
  refine ⟨?_, ?_, ?_, by decide⟩
  · have h2 : List.range (twapNumSlices 1 60) = [0] := by decide
    have h3 : twapSliceQty (7 / 10000) 1 60 = 7 / 10000 := by
      rw [twapSliceQty, show twapNumSlices 1 60 = 1 from by decide]
      norm_num
    unfold execute_twap_order
    rw [h2, h3]
    simp [twapLoop, cancelStatus]
  · norm_num [Dec.val_mk, unitVal, pow10]
  · norm_num [Dec.val_mk, unitVal, pow10]

/-- C2 (code bug): `cancel_twap_order` succeeds only on an `active` plan and
is a failure-returning no-op on `completed`, `error` or unknown plans, and a
cancelled plan places no further slice after the next checkpoint — but the
loop epilogue of `execute_twap_order` then unconditionally overwrites the
status with `completed`, so a cancelled plan ends up reporting `completed`
instead of remaining `cancelled`: here a two-slice plan cancelled during the
inter-slice sleep places only one slice yet finishes with status
`completed`. -/
theorem twap_cancelled_status_overwritten :
    cancelStatus .active = (.cancelled, true) ∧
    cancel_twap_order (some .completed) = (some .completed, false) ∧
    cancel_twap_order (some .error) = (some .error, false) ∧
    cancel_twap_order none = (none, false) ∧
    (execute_twap_order 1 2 60 (fun _ => true) (fun i => i == 1)).orders.length = 1 ∧
    (execute_twap_order 1 2 60 (fun _ => true) (fun i => i == 1)).status = .completed := by
  refine ⟨by decide, by decide, by decide, by decide, ?_⟩
  have h2 : List.range (twapNumSlices 2 60) = [0, 1] := by decide
  unfold execute_twap_order
  rw [h2]
  simp [twapLoop, cancelStatus]

/-- C3: the derived slice count is `max(1, ⌊60·duration / interval⌋)`, every
slice quantity is `total / slice_count`, the slice quantities sum to the
total before any rounding, and the scenario TWAP(total 1.0, 2 min, 60 s)
yields two slices of `0.5` each and completes. -/
theorem twap_slice_arithmetic_spec (total : ℚ) (durationMinutes intervalSeconds : Nat)
    (hs : 0 < intervalSeconds) :
    twapNumSlices durationMinutes intervalSeconds =
      max 1 ((60 * durationMinutes) / intervalSeconds) ∧
    twapSliceQty total durationMinutes intervalSeconds =
      total / (twapNumSlices durationMinutes intervalSeconds : ℚ) ∧
    (∑ _i ∈ Finset.range (twapNumSlices durationMinutes intervalSeconds),
      twapSliceQty total durationMinutes intervalSeconds) = total ∧
    twapNumSlices 2 60 = 2 ∧
    twapSliceQty 1 2 60 = 1 / 2 ∧
    (execute_twap_order 1 2 60 (fun _ => true) (fun _ => false)).orders = [1 / 2, 1 / 2] ∧
    (execute_twap_order 1 2 60 (fun _ => true) (fun _ => false)).status = .completed := by
  have hpos : twapNumSlices durationMinutes intervalSeconds ≠ 0 := by
    unfold twapNumSlices
    omega
  have hne : ((twapNumSlices durationMinutes intervalSeconds : Nat) : ℚ) ≠ 0 :=
    Nat.cast_ne_zero.mpr hpos
  refine ⟨?_, rfl, ?_, by decide, ?_, ?_⟩
  · unfold twapNumSlices
    rw [Nat.mul_comm]
  · rw [Finset.sum_const, Finset.card_range, nsmul_eq_mul, twapSliceQty,
      mul_div_cancel₀ total hne]
  · rw [twapSliceQty, show twapNumSlices 2 60 = 2 from by decide]
    norm_num
  · have h2 : List.range (twapNumSlices 2 60) = [0, 1] := by decide
    have h3 : twapSliceQty 1 2 60 = 1 / 2 := by
      rw [twapSliceQty, show twapNumSlices 2 60 = 2 from by decide]
      norm_num
    unfold execute_twap_order
    rw [h2, h3]
    constructor <;> simp [twapLoop, cancelStatus]

/-- Witness for `twap_slice_arithmetic_spec` at duration 2 min, interval
60 s. -/
theorem twap_slice_arithmetic_spec_witness :
    (0 < 60 ∧ twapNumSlices 2 60 = max 1 ((60 * 2) / 60)) ∧
    (∑ _i ∈ Finset.range (twapNumSlices 2 60), twapSliceQty 1 2 60) = 1 :=
  ⟨⟨by decide, (twap_slice_arithmetic_spec 1 2 60 (by decide)).1⟩,
    (twap_slice_arithmetic_spec 1 2 60 (by decide)).2.2.1⟩

/-- Grid price step: `(upper_price - lower_price) / (grid_levels - 1)` when
there is more than one level, else `0`. -/
def gridPriceStep (lower upper : ℚ) (levels : Nat) : ℚ :=
  if 1 < levels then (upper - lower) / ((levels - 1 : Nat) : ℚ) else 0

/-- Price of grid level `i` in `execute_grid_trading`: `lower_price` for a
single-level grid, otherwise `lower_price + i * price_step`. -/
def gridLevelPrice (lower upper : ℚ) (levels i : Nat) : ℚ :=
  if levels = 1 then lower else lower + (i : ℚ) * gridPriceStep lower upper levels

/-- Per-level quantity: `quantity / grid_levels`. -/
def gridLevelQty (total : ℚ) (levels : Nat) : ℚ := total / (levels : ℚ)

/-- The abort the grid loop does not recover from: the client wrapper's
`ValueError` for a LIMIT order whose price is falsy.  (Gateway rejections,
`BinanceAPIException`, are caught per level and skipped.) -/
inductive GridAbort where
  | valueError
deriving DecidableEq, Repr

/-- The level loop of `execute_grid_trading` over the remaining level
indices: compute the level price, place a LIMIT order through the client
wrapper (`ValueError` if the price is falsy, aborting the whole plan), catch
a gateway rejection (`gw i = false`) and continue with the next level,
append `(level index + 1, price)` to the placed orders on success. -/
def gridGo (gw : Nat → Bool) (priceOf : Nat → ℚ) :
    List Nat → List (Nat × ℚ) → Except GridAbort (List (Nat × ℚ))
  | [], acc => .ok acc
  | i :: rest, acc =>
    if priceOf i = 0 then .error .valueError
    else if gw i then gridGo gw priceOf rest (acc ++ [(i + 1, priceOf i)])
    else gridGo gw priceOf rest acc

/-- Model of `AdvancedOrderManager.execute_grid_trading`: run the level loop; on
normal loop exit the registry status becomes `completed` and the result
carries `orders_placed = len(orders)`; an uncaught exception leaves the
registry status `error` and re-raises. -/
def execute_grid_trading (total lower upper : ℚ) (levels : Nat) (gw : Nat → Bool) :
    PlanStatus × Except GridAbort (Nat × List (Nat × ℚ)) :=
  match gridGo gw (gridLevelPrice lower upper levels) (List.range levels) [] with
  | .ok orders => (.completed, .ok (orders.length, orders))
  | .error e => (.error, .error e)

/-- When no level price is falsy, the grid loop finishes normally and places
exactly the levels the gateway accepts, in index order. -/
theorem gridGo_ok (gw : Nat → Bool) (priceOf : Nat → ℚ) :
    ∀ (l : List Nat) (acc : List (Nat × ℚ)), (∀ i ∈ l, priceOf i ≠ 0) →
      gridGo gw priceOf l acc =
        .ok (acc ++ (l.filter gw).map (fun i => (i + 1, priceOf i))) := by
  intro l
  induction l with
  | nil =>
    intro acc _
    simp [gridGo]
  | cons i rest ih =>
    intro acc h
    rw [gridGo, if_neg (h i (by simp))]
    by_cases hgw : gw i
    · rw [if_pos hgw, ih _ (fun j hj => h j (by simp [hj]))]
      simp [hgw]
    · rw [if_neg hgw, ih _ (fun j hj => h j (by simp [hj]))]
      simp [hgw]

/-- With no falsy level price, grid execution completes and returns the
gateway-accepted levels in index order (shared helper). -/
theorem execute_grid_ok (total lower upper : ℚ) (levels : Nat) (gw : Nat → Bool)
    (hprices : ∀ i, i < levels → gridLevelPrice lower upper levels i ≠ 0) :
    execute_grid_trading total lower upper levels gw =
      (.completed, .ok (((List.range levels).filter gw).length,
        ((List.range levels).filter gw).map
          (fun i => (i + 1, gridLevelPrice lower upper levels i)))) := by
  unfold execute_grid_trading
  rw [gridGo_ok gw _ _ [] (fun i hi => hprices i (List.mem_range.mp hi))]
  simp

/-- C6: with no falsy level price, a per-level gateway failure is caught and
the remaining levels are still attempted; the final registry status is
`completed` regardless of how many levels failed, and `orders_placed` is the
number of levels whose gateway call succeeded. -/
theorem grid_best_effort_spec (total lower upper : ℚ) (levels : Nat) (gw : Nat → Bool)
    (hprices : ∀ i, i < levels → gridLevelPrice lower upper levels i ≠ 0) :
    execute_grid_trading total lower upper levels gw =
      (.completed, .ok (((List.range levels).filter gw).length,
        ((List.range levels).filter gw).map
          (fun i => (i + 1, gridLevelPrice lower upper levels i)))) :=
  execute_grid_ok total lower upper levels gw hprices

/-- Witness for `grid_best_effort_spec`: a three-level grid whose middle
level is rejected by the gateway completes with two placed orders. -/
theorem grid_best_effort_spec_witness :
    execute_grid_trading 1 95000 105000 3 (fun i => !(i == 1)) =
      (.completed, .ok (2, [(1, gridLevelPrice 95000 105000 3 0),
        (3, gridLevelPrice 95000 105000 3 2)])) := by
  have hp : ∀ i, i < 3 → gridLevelPrice 95000 105000 3 i ≠ 0 := by
    intro i hi
    rw [gridLevelPrice, if_neg (by omega), gridPriceStep, if_pos (by omega)]
    interval_cases i <;> norm_num
  rw [grid_best_effort_spec 1 95000 105000 3 (fun i => !(i == 1)) hp]
  rw [show (List.range 3).filter (fun i => !(i == 1)) = [0, 2] from by decide]
  simp

/-- C5: for `levels ≥ 2` the price of level `i` is
`lower + i·(upper−lower)/(levels−1)`, consecutive level prices differ by
exactly `(upper−lower)/(levels−1)`, a single-level grid places exactly one
order at the lower price, every level quantity is `total/levels`, and the
scenario Grid(95000, 105000, 11 levels) yields prices 95000, 96000, …,
105000. -/
theorem grid_level_spec (total lower upper : ℚ) (levels : Nat) :
    (2 ≤ levels → ∀ i, i < levels →
      gridLevelPrice lower upper levels i =
        lower + (i : ℚ) * ((upper - lower) / ((levels : ℚ) - 1)) ∧
      (i + 1 < levels →
        gridLevelPrice lower upper levels (i + 1) - gridLevelPrice lower upper levels i =
          (upper - lower) / ((levels : ℚ) - 1))) ∧
    gridLevelQty total levels = total / (levels : ℚ) ∧
    (lower ≠ 0 →
      execute_grid_trading total lower upper 1 (fun _ => true) =
        (.completed, .ok (1, [(1, lower)]))) ∧
    (∀ i, i < 11 → gridLevelPrice 95000 105000 11 i = 95000 + 1000 * (i : ℚ)) := by
  refine ⟨?_, rfl, ?_, ?_⟩
  · intro hlev i hi
    have hcast : ((levels - 1 : Nat) : ℚ) = (levels : ℚ) - 1 := by
      push_cast [Nat.cast_sub (by omega : 1 ≤ levels)]
      ring
    constructor
    · rw [gridLevelPrice, if_neg (by omega), gridPriceStep, if_pos (by omega), hcast]
    · intro _
      rw [gridLevelPrice, if_neg (by omega), gridLevelPrice, if_neg (by omega),
        gridPriceStep, if_pos (by omega), hcast]
      push_cast
      ring
  · intro hlow
    have hp : ∀ i, i < 1 → gridLevelPrice lower upper 1 i ≠ 0 := by
      intro i hi
      interval_cases i
      rw [gridLevelPrice, if_pos rfl]
      exact hlow
    rw [execute_grid_ok total lower upper 1 (fun _ => true) hp]
    rw [show (List.range 1).filter (fun _ => true) = [0] from by decide]
    simp [gridLevelPrice]
  · intro i hi
    rw [gridLevelPrice, if_neg (by omega), gridPriceStep, if_pos (by omega)]
    norm_num
    ring

/-- Witness for `grid_level_spec` at the scenario grid. -/
theorem grid_level_spec_witness :
    gridLevelPrice 95000 105000 11 3 =
      95000 + (3 : ℚ) * ((105000 - 95000) / ((11 : ℚ) - 1)) ∧
    gridLevelPrice 95000 105000 11 4 = 95000 + 1000 * (4 : ℚ) :=
  ⟨((grid_level_spec 1 95000 105000 11).1 (by norm_num) 3 (by norm_num)).1,
    (grid_level_spec 1 95000 105000 11).2.2.2 4 (by norm_num)⟩

/-- One record of the gateway's position list, with its `positionAmt` field
already parsed; `none` models an unparsable amount string, which the
flattening scan skips. -/
structure Position where
  symbol : String
  amt : Option ℚ
deriving DecidableEq, Repr

/-- The raw shapes `get_positions` receives from the gateway: `None`, a
list, or a single record. -/
inductive PosResp where
  | null
  | list (l : List Position)
  | single (p : Position)
deriving DecidableEq, Repr

/-- Model of `BinanceClientWrapper.get_positions`: `None` becomes `[]`; a list is
filtered by the requested symbol, but an empty filter result falls back to
the whole unfiltered list (`[p for p in positions if ...] or positions`); a
bare record is wrapped in a singleton list. -/
def get_positions (symbol : Option String) (r : PosResp) : List Position :=
  match r with
  | .null => []
  | .list l =>
    match symbol with
    | some s =>
      let f := l.filter (fun p => p.symbol == s)
      if f.isEmpty then l else f
    | none => l
  | .single p => [p]

/-- An order submitted through `TradingLogic.place_order`. -/
structure SubmittedOrder where
  symbol : String
  side : String
  otype : String
  quantity : ℚ
  reduceOnly : Bool
deriving DecidableEq, Repr

/-- The report `_flatten_symbol_position` returns (summarising the `closed`
flag and message of the result dictionary). -/
inductive FlattenOutcome where
  | noSymbol
  | fetchFailed
  | noData
  | closed (side : String) (qty : ℚ)
  | closeFailed (side : String) (qty : ℚ)
  | noOpenPosition
deriving DecidableEq, Repr

/-- The scan of `_flatten_symbol_position` over the position records: skip
records of other symbols, unparsable amounts and zero amounts; at the first
open position submit exactly one reduce-only MARKET order for the absolute
amount, side opposite the position's sign, and return. -/
def flattenLoop (symbol : String) (orderOk : Bool) :
    List Position → FlattenOutcome × List SubmittedOrder
  | [] => (.noOpenPosition, [])
  | p :: rest =>
    if p.symbol ≠ symbol then flattenLoop symbol orderOk rest
    else
      match p.amt with
      | none => flattenLoop symbol orderOk rest
      | some a =>
        if a = 0 then flattenLoop symbol orderOk rest
        else
          if orderOk then
            (.closed (if 0 < a then "SELL" else "BUY") |a|,
              [⟨symbol, if 0 < a then "SELL" else "BUY", "MARKET", |a|, true⟩])
          else
            (.closeFailed (if 0 < a then "SELL" else "BUY") |a|,
              [⟨symbol, if 0 < a then "SELL" else "BUY", "MARKET", |a|, true⟩])

/-- Model of `TradingLogic._flatten_symbol_position`: guard the empty symbol, fetch
the positions through `get_positions` (`fetch = error` models the exception
path of the fetch), report when no records come back, otherwise scan them.
`orderOk` says whether the close-order placement succeeds. -/
def flatten_symbol_position (symbol : String) (fetch : Except Unit PosResp)
    (orderOk : Bool) : FlattenOutcome × List SubmittedOrder :=
  if symbol = "" then (.noSymbol, [])
  else
    match fetch with
    | .error _ => (.fetchFailed, [])
    | .ok r =>
      let positions := get_positions (some symbol) r
      if positions.isEmpty then (.noData, [])
      else flattenLoop symbol orderOk positions

/-- Model of `TradingLogic.stop_strategy` on the active-strategy registry, modelled as
an association list from strategy name to symbol: an unknown name returns
`None` and changes nothing; otherwise the strategy is deleted from the
registry and exactly one flatten attempt runs for its symbol, whose outcome
is returned. -/
def stop_strategy (reg : List (String × String)) (name : String)
    (fetch : Except Unit PosResp) (orderOk : Bool) :
    Option (FlattenOutcome × List SubmittedOrder) × List (String × String) :=
  match reg.find? (fun e => e.1 == name) with
  | none => (none, reg)
  | some e =>
    (some (flatten_symbol_position e.2 fetch orderOk),
      reg.filter (fun x => !(x.1 == name)))

/-- The first parseable nonzero position amount for the symbol, in list
order — the record the flatten scan acts on. -/
def firstOpenAmt (symbol : String) : List Position → Option ℚ
  | [] => none
  | p :: rest =>
    if p.symbol ≠ symbol then firstOpenAmt symbol rest
    else
      match p.amt with
      | none => firstOpenAmt symbol rest
      | some a => if a = 0 then firstOpenAmt symbol rest else some a

theorem firstOpenAmt_cons_skip {symbol : String} {p : Position} (rest : List Position)
    (hsym : p.symbol ≠ symbol) :
    firstOpenAmt symbol (p :: rest) = firstOpenAmt symbol rest := by
  rw [firstOpenAmt, if_pos hsym]

theorem firstOpenAmt_cons_none {symbol : String} {p : Position} (rest : List Position)
    (hsym : ¬ p.symbol ≠ symbol) (hamt : p.amt = none) :
    firstOpenAmt symbol (p :: rest) = firstOpenAmt symbol rest := by
  rw [firstOpenAmt, if_neg hsym, hamt]

theorem firstOpenAmt_cons_some {symbol : String} {p : Position} {a : ℚ}
    (rest : List Position) (hsym : ¬ p.symbol ≠ symbol) (hamt : p.amt = some a) :
    firstOpenAmt symbol (p :: rest) =
      if a = 0 then firstOpenAmt symbol rest else some a := by
  rw [firstOpenAmt, if_neg hsym, hamt]

theorem flattenLoop_cons_skip {symbol : String} {p : Position} (orderOk : Bool)
    (rest : List Position) (hsym : p.symbol ≠ symbol) :
    flattenLoop symbol orderOk (p :: rest) = flattenLoop symbol orderOk rest := by
  rw [flattenLoop, if_pos hsym]

theorem flattenLoop_cons_none {symbol : String} {p : Position} (orderOk : Bool)
    (rest : List Position) (hsym : ¬ p.symbol ≠ symbol) (hamt : p.amt = none) :
    flattenLoop symbol orderOk (p :: rest) = flattenLoop symbol orderOk rest := by
  rw [flattenLoop, if_neg hsym, hamt]

theorem flattenLoop_cons_some {symbol : String} {p : Position} {a : ℚ} (orderOk : Bool)
    (rest : List Position) (hsym : ¬ p.symbol ≠ symbol) (hamt : p.amt = some a) :
    flattenLoop symbol orderOk (p :: rest) =
      if a = 0 then flattenLoop symbol orderOk rest
      else
        if orderOk then
          (.closed (if 0 < a then "SELL" else "BUY") |a|,
            [⟨symbol, if 0 < a then "SELL" else "BUY", "MARKET", |a|, true⟩])
        else
          (.closeFailed (if 0 < a then "SELL" else "BUY") |a|,
            [⟨symbol, if 0 < a then "SELL" else "BUY", "MARKET", |a|, true⟩]) := by
  rw [flattenLoop, if_neg hsym, hamt]

theorem flattenLoop_of_none (symbol : String) (orderOk : Bool) :
    ∀ l, firstOpenAmt symbol l = none →
      flattenLoop symbol orderOk l = (.noOpenPosition, []) := by
  intro l
  induction l with
  | nil => intro _; rfl
  | cons p rest ih =>
    intro h
    by_cases hsym : p.symbol ≠ symbol
    · rw [firstOpenAmt_cons_skip rest hsym] at h
      rw [flattenLoop_cons_skip orderOk rest hsym]
      exact ih h
    · cases hamt : p.amt with
      | none =>
        rw [firstOpenAmt_cons_none rest hsym hamt] at h
        rw [flattenLoop_cons_none orderOk rest hsym hamt]
        exact ih h
      | some a =>
        rw [firstOpenAmt_cons_some rest hsym hamt] at h
        rw [flattenLoop_cons_some orderOk rest hsym hamt]
        by_cases ha : a = 0
        · rw [if_pos ha] at h
          rw [if_pos ha]
          exact ih h
        · rw [if_neg ha] at h
          exact absurd h (by simp)

theorem flattenLoop_of_some (symbol : String) (orderOk : Bool) :
    ∀ l a, firstOpenAmt symbol l = some a →
      flattenLoop symbol orderOk l =
        ((if orderOk then FlattenOutcome.closed (if 0 < a then "SELL" else "BUY") |a|
          else FlattenOutcome.closeFailed (if 0 < a then "SELL" else "BUY") |a|),
          [⟨symbol, if 0 < a then "SELL" else "BUY", "MARKET", |a|, true⟩]) := by
  intro l
  induction l with
  | nil => intro a h; exact absurd h (by simp [firstOpenAmt])
  | cons p rest ih =>
    intro a h
    by_cases hsym : p.symbol ≠ symbol
    · rw [firstOpenAmt_cons_skip rest hsym] at h
      rw [flattenLoop_cons_skip orderOk rest hsym]
      exact ih a h
    · cases hamt : p.amt with
      | none =>
        rw [firstOpenAmt_cons_none rest hsym hamt] at h
        rw [flattenLoop_cons_none orderOk rest hsym hamt]
        exact ih a h
      | some b =>
        rw [firstOpenAmt_cons_some rest hsym hamt] at h
        rw [flattenLoop_cons_some orderOk rest hsym hamt]
        by_cases hb : b = 0
        · rw [if_pos hb] at h
          rw [if_pos hb]
          exact ih a h
        · rw [if_neg hb] at h
          rw [if_neg hb]
          injection h with h1
          subst h1
          split <;> rfl

theorem firstOpenAmt_filter (symbol : String) :
    ∀ l, firstOpenAmt symbol (l.filter (fun p => p.symbol == symbol)) =
      firstOpenAmt symbol l := by
  intro l
  induction l with
  | nil => rfl
  | cons p rest ih =>
    by_cases hp : p.symbol = symbol
    · rw [List.filter_cons_of_pos (by simp [hp])]
      cases hamt : p.amt with
      | none =>
        rw [firstOpenAmt_cons_none _ (by simp [hp]) hamt,
          firstOpenAmt_cons_none _ (by simp [hp]) hamt]
        exact ih
      | some a =>
        rw [firstOpenAmt_cons_some _ (by simp [hp]) hamt,
          firstOpenAmt_cons_some _ (by simp [hp]) hamt]
        by_cases ha : a = 0
        · rw [if_pos ha, if_pos ha]
          exact ih
        · rw [if_neg ha, if_neg ha]
    · rw [List.filter_cons_of_neg (by simp [hp]),
        firstOpenAmt_cons_skip _ (by simp [hp])]
      exact ih

theorem firstOpenAmt_get_positions (symbol : String) (l : List Position) :
    firstOpenAmt symbol (get_positions (some symbol) (.list l)) =
      firstOpenAmt symbol l := by
  have hred : get_positions (some symbol) (.list l) =
      (if (l.filter (fun p => p.symbol == symbol)).isEmpty then l
       else l.filter (fun p => p.symbol == symbol)) := rfl
  rw [hred]
  by_cases hf : (l.filter (fun p => p.symbol == symbol)).isEmpty
  · rw [if_pos hf]
  · rw [if_neg hf]
    exact firstOpenAmt_filter symbol l

theorem flatten_ok_list (sym : String) (l : List Position) (orderOk : Bool)
    (hsym : ¬ sym = "") :
    flatten_symbol_position sym (.ok (.list l)) orderOk =
      (if (get_positions (some sym) (.list l)).isEmpty then (.noData, [])
       else flattenLoop sym orderOk (get_positions (some sym) (.list l))) := by
  rw [flatten_symbol_position, if_neg hsym]

/-- Deleting a registered key from a key-unique registry removes exactly one
entry. -/
theorem filter_out_key_length (name : String) :
    ∀ (reg : List (String × String)), (reg.map Prod.fst).Nodup →
      (∃ e ∈ reg, e.1 = name) →
      (reg.filter (fun x => !(x.1 == name))).length + 1 = reg.length := by
  intro reg
  induction reg with
  | nil =>
    rintro _ ⟨e, he, _⟩
    simp at he
  | cons x rest ih =>
    intro hnodup hex
    have hnodup2 : (x.1 :: rest.map Prod.fst).Nodup := by simpa using hnodup
    by_cases hx : x.1 = name
    · rw [List.filter_cons_of_neg (by simp [hx])]
      have hhead : x.1 ∉ rest.map Prod.fst := (List.nodup_cons.mp hnodup2).1
      have hrest : rest.filter (fun y => !(y.1 == name)) = rest := by
        apply List.filter_eq_self.mpr
        intro y hy
        simp only [Bool.not_eq_true', beq_eq_false_iff_ne, ne_eq]
        intro hyname
        exact hhead (List.mem_map.mpr ⟨y, hy, by rw [hyname, hx]⟩)
      rw [hrest]
      simp
    · rw [List.filter_cons_of_pos (by simp [hx])]
      simp only [List.length_cons]
      have hex2 : ∃ e ∈ rest, e.1 = name := by
        obtain ⟨e, he, hename⟩ := hex
        rcases List.mem_cons.mp he with rfl | hmem
        · exact absurd hename hx
        · exact ⟨e, hmem, hename⟩
      have := ih (List.nodup_cons.mp hnodup2).2 hex2
      omega

/-- C7: stopping a registered strategy returns exactly the one flatten
attempt's outcome and removes the strategy from the registry exactly once;
an unknown name fails and changes nothing.  The flatten attempt places no
order and reports no position when the symbol has no parseable nonzero
position record, and places exactly one reduce-only MARKET order for the
absolute amount, side opposite the position's sign, when it has one; in
particular position −0.02 yields a reduce-only BUY for 0.02. -/
theorem stop_strategy_flatten_spec (reg : List (String × String)) (name symbol : String)
    (fetch : Except Unit PosResp) (orderOk : Bool)
    (hfind : reg.find? (fun e => e.1 == name) = some (name, symbol))
    (hnodup : (reg.map Prod.fst).Nodup) :
    (stop_strategy reg name fetch orderOk).1 =
      some (flatten_symbol_position symbol fetch orderOk) ∧
    (∀ e ∈ (stop_strategy reg name fetch orderOk).2, e.1 ≠ name) ∧
    (stop_strategy reg name fetch orderOk).2.length + 1 = reg.length ∧
    (∀ reg2 nm, List.find? (fun e => e.1 == nm) reg2 = none →
      stop_strategy reg2 nm fetch orderOk = (none, reg2)) ∧
    (∀ sym l ok2, sym ≠ "" → firstOpenAmt sym l = none →
      (flatten_symbol_position sym (.ok (.list l)) ok2).2 = [] ∧
      ((flatten_symbol_position sym (.ok (.list l)) ok2).1 = .noData ∨
        (flatten_symbol_position sym (.ok (.list l)) ok2).1 = .noOpenPosition)) ∧
    (∀ sym l ok2 a, sym ≠ "" → firstOpenAmt sym l = some a →
      (flatten_symbol_position sym (.ok (.list l)) ok2).2 =
        [⟨sym, if 0 < a then "SELL" else "BUY", "MARKET", |a|, true⟩]) ∧
    flatten_symbol_position "BTCUSDT" (.ok (.list [⟨"BTCUSDT", some (-(2/100))⟩])) true =
      (.closed "BUY" (2 / 100), [⟨"BTCUSDT", "BUY", "MARKET", 2 / 100, true⟩]) := by
  refine ⟨?_, ?_, ?_, ?_, ?_, ?_, ?_⟩
  · rw [stop_strategy, hfind]
  · intro e he
    rw [stop_strategy, hfind] at he
    have he2 := List.mem_filter.mp he
    simpa using he2.2
  · rw [stop_strategy, hfind]
    exact filter_out_key_length name reg hnodup
      ⟨(name, symbol), List.mem_of_find?_eq_some hfind, rfl⟩
  · intro reg2 nm hnone
    rw [stop_strategy, hnone]
  · intro sym l ok2 hsym hnone
    rw [flatten_ok_list sym l ok2 hsym]
    by_cases hemp : (get_positions (some sym) (.list l)).isEmpty
    · rw [if_pos hemp]
      exact ⟨rfl, Or.inl rfl⟩
    · rw [if_neg hemp]
      have h1 : firstOpenAmt sym (get_positions (some sym) (.list l)) = none := by
        rw [firstOpenAmt_get_positions]
        exact hnone
      rw [flattenLoop_of_none sym ok2 _ h1]
      exact ⟨rfl, Or.inr rfl⟩
  · intro sym l ok2 a hsym hsome
    rw [flatten_ok_list sym l ok2 hsym]
    have h1 : firstOpenAmt sym (get_positions (some sym) (.list l)) = some a := by
      rw [firstOpenAmt_get_positions]
      exact hsome
    have hemp : ¬ (get_positions (some sym) (.list l)).isEmpty := by
      intro hcontra
      rw [List.isEmpty_iff.mp hcontra] at h1
      simp [firstOpenAmt] at h1
    rw [if_neg hemp, flattenLoop_of_some sym ok2 _ a h1]
  · have hsym : ¬ ("BTCUSDT" : String) = "" := by decide
    rw [flatten_ok_list _ _ _ hsym]
    have hpos : get_positions (some "BTCUSDT")
        (.list [⟨"BTCUSDT", some (-(2/100))⟩]) = [⟨"BTCUSDT", some (-(2/100))⟩] := by
      rfl
    rw [hpos]
    rw [show (([⟨"BTCUSDT", some (-(2/100))⟩] : List Position)).isEmpty = false from rfl]
    simp only [Bool.false_eq_true, if_false]
    rw [flattenLoop_cons_some true [] (by simp) rfl, if_neg (by norm_num)]
    norm_num

/-- Witness for `stop_strategy_flatten_spec` on a one-entry registry. -/
theorem stop_strategy_flatten_spec_witness :
    (stop_strategy [("s1", "BTCUSDT")] "s1" (.ok .null) true).1 =
      some (flatten_symbol_position "BTCUSDT" (.ok .null) true) ∧
    (stop_strategy [("s1", "BTCUSDT")] "s1" (.ok .null) true).2.length + 1 = 1 := by
  have hfind : List.find? (fun e => e.1 == "s1") [("s1", "BTCUSDT")] =
      some ("s1", "BTCUSDT") := by decide
  have hnodup : (([("s1", "BTCUSDT")] : List (String × String)).map Prod.fst).Nodup := by
    simp
  have h := stop_strategy_flatten_spec [("s1", "BTCUSDT")] "s1" "BTCUSDT"
    (.ok .null) true hfind hnodup
  exact ⟨h.1, h.2.2.1⟩

/-- Simple moving average over the last `p` closes (`closes[-p:]`), as the
strategy loop computes it. -/
def sma (closes : List ℚ) (p : Nat) : ℚ :=
  (closes.drop (closes.length - p)).sum / (p : ℚ)

/-- The signal policy of one iteration of
`_run_simple_ema_crossover_strategy`: given the fetched closes and current
position amount, submit a BUY MARKET order of the configured per-trade
quantity iff the short average exceeds the long average and the position is
not positive; a SELL iff the long average exceeds the short average and the
position is not negative; otherwise (or while history is too short) no
order. -/
def strategy_signal_order (closes : List ℚ) (shortP longP : Nat) (qty posAmt : ℚ) :
    Option (String × String × ℚ) :=
  if closes.length < max shortP longP then none
  else if sma closes shortP > sma closes longP ∧ posAmt ≤ 0 then
    some ("BUY", "MARKET", qty)
  else if sma closes longP > sma closes shortP ∧ posAmt ≥ 0 then
    some ("SELL", "MARKET", qty)
  else none

/-- C8: with sufficient history, a BUY MARKET order of the configured
quantity is submitted iff short SMA > long SMA and the position is ≤ 0; a
SELL iff long SMA > short SMA and the position is ≥ 0; otherwise the
iteration holds. -/
theorem ema_signal_policy_spec (closes : List ℚ) (shortP longP : Nat) (qty posAmt : ℚ)
    (hlen : max shortP longP ≤ closes.length) :
    (strategy_signal_order closes shortP longP qty posAmt = some ("BUY", "MARKET", qty) ↔
      sma closes longP < sma closes shortP ∧ posAmt ≤ 0) ∧
    (strategy_signal_order closes shortP longP qty posAmt = some ("SELL", "MARKET", qty) ↔
      sma closes shortP < sma closes longP ∧ 0 ≤ posAmt) ∧
    (strategy_signal_order closes shortP longP qty posAmt = none ↔
      ¬ (sma closes longP < sma closes shortP ∧ posAmt ≤ 0) ∧
      ¬ (sma closes shortP < sma closes longP ∧ 0 ≤ posAmt)) := by
  rw [strategy_signal_order, if_neg (not_lt.mpr hlen)]
  by_cases hbuy : sma closes longP < sma closes shortP ∧ posAmt ≤ 0
  · rw [if_pos hbuy]
    have hnsell : ¬ (sma closes shortP < sma closes longP ∧ 0 ≤ posAmt) := by
      rintro ⟨h1, _⟩
      exact absurd hbuy.1 (lt_asymm h1)
    refine ⟨iff_of_true rfl hbuy, iff_of_false (by simp) hnsell,
      iff_of_false (by simp) (by tauto)⟩
  · rw [if_neg hbuy]
    by_cases hsell : sma closes shortP < sma closes longP ∧ 0 ≤ posAmt
    · rw [if_pos hsell]
      refine ⟨iff_of_false (by simp) hbuy, iff_of_true rfl hsell,
        iff_of_false (by simp) (by tauto)⟩
    · rw [if_neg hsell]
      refine ⟨iff_of_false (by simp) hbuy, iff_of_false (by simp) hsell,
        iff_of_true rfl ⟨hbuy, hsell⟩⟩

/-- Witness for `ema_signal_policy_spec`: rising closes with a flat position
trigger a BUY of the configured quantity. -/
theorem ema_signal_policy_spec_witness :
    max 1 2 ≤ ([(1 : ℚ), 2, 3]).length ∧
    strategy_signal_order [1, 2, 3] 1 2 (1 / 100) 0 = some ("BUY", "MARKET", 1 / 100) := by
  have hlen : max 1 2 ≤ ([(1 : ℚ), 2, 3]).length := by simp
  refine ⟨hlen, ?_⟩
  apply (ema_signal_policy_spec [1, 2, 3] 1 2 (1 / 100) 0 hlen).1.mpr
  constructor
  · norm_num [sma]
  · norm_num

/-- C10: with a symbol filter, `get_positions` falls back to the entire
unfiltered gateway list when no record matches the symbol, and returns an
empty list exactly when the gateway returned no records. -/
theorem get_positions_filter_fallback_spec (s : String) (l : List Position) :
    ((∀ p ∈ l, p.symbol ≠ s) → get_positions (some s) (.list l) = l) ∧
    (get_positions (some s) (.list l) = [] ↔ l = []) ∧
    get_positions (some s) .null = [] := by
  have hred : get_positions (some s) (.list l) =
      (if (l.filter (fun p => p.symbol == s)).isEmpty then l
       else l.filter (fun p => p.symbol == s)) := rfl
  refine ⟨?_, ?_, rfl⟩
  · intro hno
    rw [hred, if_pos]
    rw [List.isEmpty_iff]
    apply List.filter_eq_nil_iff.mpr
    intro p hp
    simp [hno p hp]
  · rw [hred]
    by_cases hf : (l.filter (fun p => p.symbol == s)).isEmpty
    · rw [if_pos hf]
    · rw [if_neg hf]
      constructor
      · intro hcontra
        exact absurd (by rw [hcontra]; rfl) hf
      · intro hl
        subst hl
        simp at hf

/-- Witness for `get_positions_filter_fallback_spec`: a one-record list for a
different symbol is returned whole. -/
theorem get_positions_filter_fallback_spec_witness :
    get_positions (some "BTCUSDT") (.list [⟨"ETHUSDT", some 1⟩]) =
      [⟨"ETHUSDT", some 1⟩] :=
  (get_positions_filter_fallback_spec "BTCUSDT" [⟨"ETHUSDT", some 1⟩]).1
    (by intro p hp; simp at hp; subst hp; simp)

end TradingBot
